import Mathlib

/-!
Verification development for the text-analysis tool in `app.py`.

The program is a single-script pipeline: a web page (or typed text) is
turned into plain text (`crawl_webpage`), cleaned and segmented
(`preprocess_text`), and aggregated into a word-frequency table
(`Counter(words[:5000])` / `most_common`).  The definitions below are a
shallow embedding of exactly those parts of the script:

* the three cleaning regex passes of `preprocess_text`
  (digit and date removal, the pattern `\d+` and three digit runs
  separated by `-` or `/` characters;
  `re.sub(r"[^一-龥]", "", ...)`,
  `re.sub(r"(.{2,5})\1{3,}", r"\1", ...)`) are modeled as scans over
  `List Char` with the leftmost-match, greedy-with-backtracking
  semantics of Python's `re.sub`;
* the stop-word / length filters of `preprocess_text`;
* `Counter` / `most_common` with Python's insertion-order dictionaries
  and the stable descending sort of `heapq.nlargest`;
* the HTML text extraction of `crawl_webpage`
  (`decompose` of script/style/iframe/noscript, then
  `get_text(separator=" ", strip=True)`, then `re.sub(r"\s+", " ", ...)`)
  over an explicit HTML node tree.

The external segmenter `jieba.lcut` is not part of the repository; it is
modeled as an arbitrary function `segment : String → List String`, and
theorems that need a property of it (tokens are built from characters of
the input) take that property as a hypothesis.
-/

/-- ASCII decimal digit, the characters matched by `\d` on the inputs
considered here (Python's `\d` also matches non-ASCII decimal digits,
which never occur in this development). -/
def isDigitCh (c : Char) : Bool := decide (48 ≤ c.toNat) && decide (c.toNat ≤ 57)

/-- A character of the CJK Unified Ideographs range `一`–`龥`,
the class kept by `re.sub(r"[^一-龥]", "", text)` (line 131). -/
def isCJK (c : Char) : Bool := decide (0x4e00 ≤ c.toNat) && decide (c.toNat ≤ 0x9fa5)

/-- ASCII whitespace as matched by `\s` and stripped by `str.strip()`
(space, tab, newline, carriage return, vertical tab, form feed). -/
def isSpaceCh (c : Char) : Bool :=
  c == ' ' || c == '\t' || c == '\n' || c == '\r' || c == Char.ofNat 11 || c == Char.ofNat 12

/-- Python `str.strip()`: drop leading and trailing whitespace. -/
def stripStr (s : String) : String :=
  String.mk (((s.data.dropWhile isSpaceCh).reverse.dropWhile isSpaceCh).reverse)

/-- One left-to-right pass of `re.sub(r"\s+", " ", s)` (line 83): every
maximal run of whitespace becomes a single space.  The boolean records
whether the previous character was part of a whitespace run. -/
def collapseWSAux : Bool → List Char → List Char
  | _, [] => []
  | prev, c :: cs =>
    if isSpaceCh c then
      if prev then collapseWSAux true cs else ' ' :: collapseWSAux true cs
    else c :: collapseWSAux false cs

/-- `re.sub(r"\s+", " ", s)` as used on the extracted page text. -/
def collapse_ws (s : String) : String := String.mk (collapseWSAux false s.data)

/-- The date alternative of the digit-removal regex (line 129), tried at
one position: three maximal nonempty digit runs separated by `-` or `/`
characters.  Returns the rest of the input after the match. -/
def matchDate (s : List Char) : Option (List Char) :=
  match s.takeWhile isDigitCh with
  | [] => none
  | _ :: _ =>
    match s.dropWhile isDigitCh with
    | c1 :: t1 =>
      if c1 = '-' ∨ c1 = '/' then
        match t1.takeWhile isDigitCh with
        | [] => none
        | _ :: _ =>
          match t1.dropWhile isDigitCh with
          | c2 :: t2 =>
            if c2 = '-' ∨ c2 = '/' then
              match t2.takeWhile isDigitCh with
              | [] => none
              | _ :: _ => some (t2.dropWhile isDigitCh)
            else none
          | [] => none
      else none
    | [] => none

/-- Left-to-right scan of the digit-removal substitution of line 129
(pattern: date alternative, then `\d+`, replaced by the empty string).
At a digit, the date alternative is tried first (as Python's
alternation does); otherwise the maximal digit run matches `\d+`.  Either
match is deleted.  Fuel is the length of the input, enough because every
step consumes at least one character. -/
def removeDigitsAux : Nat → List Char → List Char
  | 0, s => s
  | fuel + 1, s =>
    match s with
    | [] => []
    | c :: cs =>
      if isDigitCh c then
        match matchDate (c :: cs) with
        | some rest => removeDigitsAux fuel rest
        | none => removeDigitsAux fuel ((c :: cs).dropWhile isDigitCh)
      else c :: removeDigitsAux fuel cs

/-- Step 1 of `preprocess_text` (line 129): remove digit runs and
date-like digit groups. -/
def removeDigits (s : String) : String :=
  String.mk (removeDigitsAux s.data.length s.data)

/-- Step 2 of `preprocess_text` (line 131):
`re.sub(r"[^一-龥]", "", text)`, keep only CJK characters. -/
def keepChinese (s : String) : String := String.mk (s.data.filter isCJK)

/-- Maximal number of consecutive copies of `u` at the front of the
remaining input — the greedy `\1{3,}` repetition count.  Fuel is the
length of the remaining input. -/
def copiesAux (u : List Char) : Nat → List Char → Nat
  | 0, _ => 0
  | fuel + 1, s => if u.isPrefixOf s then copiesAux u fuel (s.drop u.length) + 1 else 0

/-- Try the pattern `(.{2,5})\1{3,}` at the current position with a fixed
capture length `L`: the capture is the next `L` characters, and the match
succeeds when at least three further consecutive copies follow (greedy,
so all available copies are consumed).  On success, returns the capture
(the replacement `\1`) and the input after the whole match. -/
def tryLen (L : Nat) (s : List Char) : Option (List Char × List Char) :=
  if L ≤ s.length then
    if 3 ≤ copiesAux (s.take L) (s.drop L).length (s.drop L) then
      some (s.take L, s.drop (L * (copiesAux (s.take L) (s.drop L).length (s.drop L) + 1)))
    else none
  else none

/-- The regex engine's choice at one position: the greedy `.{2,5}` tries
capture lengths 5, 4, 3, 2 in that order and the first that lets
`\1{3,}` succeed wins. -/
def tryRepeat (s : List Char) : Option (List Char × List Char) :=
  match tryLen 5 s with
  | some r => some r
  | none =>
    match tryLen 4 s with
    | some r => some r
    | none =>
      match tryLen 3 s with
      | some r => some r
      | none => tryLen 2 s

/-- Left-to-right scan of `re.sub(r"(.{2,5})\1{3,}", r"\1", text)`
(line 133): at each position try a match; on a match emit the capture
once and continue after the match, otherwise emit the character and move
on.  Fuel is the length of the input. -/
def collapseAux : Nat → List Char → List Char
  | 0, s => s
  | fuel + 1, s =>
    match s with
    | [] => []
    | c :: cs =>
      match tryRepeat (c :: cs) with
      | some (u, rest) => u ++ collapseAux fuel rest
      | none => c :: collapseAux fuel cs

/-- Step 3 of `preprocess_text` (line 133): collapse a 2–5 character unit
repeated 4 or more consecutive times to a single copy of the (greedily
chosen) capture.  `.` excludes `\n` in Python, which is irrelevant here
because this pass always runs on the all-CJK output of `keepChinese`. -/
def collapseRepeats (s : String) : String :=
  String.mk (collapseAux s.data.length s.data)

/-- The full cleaning chain of `preprocess_text` (lines 129–133). -/
def cleanText (text : String) : String :=
  collapseRepeats (keepChinese (removeDigits text))

/-- The built-in stop-word set of `preprocess_text` (line 147). -/
def stopWords : List String :=
  ["的", "了", "是", "在", "和", "有", "都", "而", "及", "与", "之", "于", "也", "还", "这", "那"]

/-- The two filtering comprehensions of `preprocess_text`
(lines 148–149): drop stop words and tokens of length < 2, then drop
tokens that strip to the empty string. -/
def filterTokens (ws : List String) : List String :=
  (ws.filter (fun w => !(stopWords.contains w) && decide (2 ≤ w.length))).filter
    (fun w => stripStr w != "")

/-- `preprocess_text` (lines 116–154), instrumented: the returned boolean
records whether control reached the segmentation call `jieba.lcut`
(line 144).  `segment` stands for `jieba.lcut`, an external library
function.  The guard `if not text or len(text) < 10` is `length < 10`
(the emptiness test is subsumed); the second guard `if not text` after
cleaning is the emptiness test on the cleaned text. -/
def preprocessSeg (segment : String → List String) (text : String) :
    List String × Bool :=
  if text.length < 10 then ([], false)
  else if cleanText text = "" then ([], false)
  else (filterTokens (segment (cleanText text)), true)

/-- The word list returned by `preprocess_text`. -/
def preprocess_text (segment : String → List String) (text : String) : List String :=
  (preprocessSeg segment text).1

/-- The trivial segmenter (the whole string as one token); a concrete
instance of the segmentation contract, used for witnesses. -/
def segId : String → List String := fun s => [s]

/-- The warning condition of `crawl_webpage` (line 89): the extracted
text is shorter than 50 characters.  In the code this condition only
selects between a warning and a preview; the text is stored in
`session_state` and returned unchanged either way. -/
def contentTooShort (content : String) : Bool := decide (content.length < 50)

/-- The distinct elements of `l` in order of first occurrence — the key
order of a Python dictionary (hence of `Counter(l)`), which preserves
insertion order. -/
def firsts : List String → List String
  | [] => []
  | x :: xs => x :: (firsts xs).filter (fun y => y != x)

/-- `Counter(l).items()`: each distinct element of `l`, in first-occurrence
order, paired with its number of occurrences in `l` (line 233). -/
def counterItems (l : List String) : List (String × Nat) :=
  (firsts l).map (fun t => (t, l.count t))

/-- Stable descending insertion by count: the new entry goes before the
first entry whose count is less than or equal to its own, so an entry
inserted for an earlier first occurrence stays ahead of later entries
with an equal count. -/
def insertDesc (x : String × Nat) : List (String × Nat) → List (String × Nat)
  | [] => [x]
  | y :: ys => if y.2 ≤ x.2 then x :: y :: ys else y :: insertDesc x ys

/-- Stable sort by count descending, realising the documented behaviour
of `heapq.nlargest` (used by `Counter.most_common`): equivalent to a
stable reverse sort on the count, ties keeping insertion order. -/
def sortDesc : List (String × Nat) → List (String × Nat)
  | [] => []
  | x :: xs => insertDesc x (sortDesc xs)

/-- `word_count = Counter(words[:5000])` (line 233): the counter is built
from the first 5000 surviving tokens only. -/
def word_count (words : List String) : List (String × Nat) :=
  counterItems (words.take 5000)

/-- `top_n = word_count.most_common(min(20, len(word_count)))` (line 234):
the stable descending order of the counter entries, truncated to at most
20 entries (the truncation is vacuous because the argument never exceeds
the number of distinct tokens). -/
def top_n (words : List String) : List (String × Nat) :=
  (sortDesc (word_count words)).take (min 20 (word_count words).length)

/-- Sum of the counts of a frequency table. -/
def sumCounts (t : List (String × Nat)) : Nat := (t.map Prod.snd).sum

/-- An HTML node as produced by `BeautifulSoup(content, "html.parser")`:
a text node, or an element with a tag name and child nodes.  Attributes
are omitted because nothing in `crawl_webpage` reads them: the code
selects elements by tag name only (line 75) and otherwise takes the full
page text (line 81). -/
inductive HNode where
  | txt : String → HNode
  | elem : String → List HNode → HNode

/-- The tags removed before extraction (line 75):
`soup(["script", "style", "iframe", "noscript"])` then `.decompose()`. -/
def removedTag (t : String) : Bool :=
  t == "script" || t == "style" || t == "iframe" || t == "noscript"

mutual

/-- `decompose` of the removed tags: an element with a removed tag
disappears with its whole subtree; all other nodes are kept with their
children scrubbed. -/
def scrub : HNode → List HNode
  | .txt s => [.txt s]
  | .elem t ch => if removedTag t then [] else [.elem t (scrubList ch)]

def scrubList : List HNode → List HNode
  | [] => []
  | n :: ns => scrub n ++ scrubList ns

end

mutual

/-- All text-node strings of a node, in document order — the string
stream that `get_text` concatenates. -/
def nodeStrings : HNode → List String
  | .txt s => [s]
  | .elem _ ch => nodeStringsList ch

def nodeStringsList : List HNode → List String
  | [] => []
  | n :: ns => nodeStrings n ++ nodeStringsList ns

end

/-- Python's `sep.join(parts)`. -/
def joinSep (sep : String) : List String → String
  | [] => ""
  | [s] => s
  | s :: rest => s ++ sep ++ joinSep sep rest

/-- `soup.get_text(separator=" ", strip=True)` over a node list
(line 81): every string is stripped, whitespace-only strings are
dropped, and the rest are joined with the separator. -/
def getTextStrip (doc : List HNode) : String :=
  joinSep " " (((nodeStringsList doc).map stripStr).filter (fun s => s != ""))

/-- The whole extraction step of `crawl_webpage` (lines 74–83): remove
script/style/iframe/noscript, take the entire page text with a space
separator, and collapse whitespace runs.  There is no rule cascade: this
is applied to every page unconditionally. -/
def extractText (doc : List HNode) : String :=
  collapse_ws (getTextStrip (scrubList doc))

/-- A document with no class or id anywhere, no article or main element,
and exactly three p elements holding the given texts. -/
def threePDoc (a b c : String) : List HNode :=
  [.elem "html" [.elem "body" [.elem "p" [.txt a], .elem "p" [.txt b], .elem "p" [.txt c]]]]

/-- The example document of the extraction-cascade test: three p elements
containing "A", "B" and "C". -/
def exampleDoc : List HNode := threePDoc "A" "B" "C"

theorem data_mk (l : List Char) : (String.mk l).data = l := rfl

theorem isDigitCh_eq_false_of_isCJK {c : Char} (h : isCJK c = true) : isDigitCh c = false := by
  simp only [isCJK, Bool.and_eq_true, decide_eq_true_eq] at h
  simp only [isDigitCh, Bool.and_eq_false_iff, decide_eq_false_iff_not]
  omega

theorem tryLen_some {L : Nat} {s u rest : List Char} (h : tryLen L s = some (u, rest)) :
    u = s.take L ∧ ∃ m, rest = s.drop m := by
  unfold tryLen at h
  split at h
  · split at h
    · injection h with h'
      exact ⟨(congrArg Prod.fst h').symm, ⟨_, (congrArg Prod.snd h').symm⟩⟩
    · cases h
  · cases h

theorem tryRepeat_some {s u rest : List Char} (h : tryRepeat s = some (u, rest)) :
    (∃ L, u = s.take L) ∧ ∃ m, rest = s.drop m := by
  unfold tryRepeat at h
  cases h5 : tryLen 5 s with
  | some r => rw [h5] at h; injection h with h'; subst h'
              exact ⟨⟨5, (tryLen_some h5).1⟩, (tryLen_some h5).2⟩
  | none =>
    rw [h5] at h
    cases h4 : tryLen 4 s with
    | some r => rw [h4] at h; injection h with h'; subst h'
                exact ⟨⟨4, (tryLen_some h4).1⟩, (tryLen_some h4).2⟩
    | none =>
      rw [h4] at h
      cases h3 : tryLen 3 s with
      | some r => rw [h3] at h; injection h with h'; subst h'
                  exact ⟨⟨3, (tryLen_some h3).1⟩, (tryLen_some h3).2⟩
      | none => rw [h3] at h; exact ⟨⟨2, (tryLen_some h).1⟩, (tryLen_some h).2⟩

theorem mem_of_mem_collapseAux :
    ∀ {fuel : Nat} {s : List Char} {c : Char}, c ∈ collapseAux fuel s → c ∈ s := by
  intro fuel
  induction fuel with
  | zero => intro s c h; simpa [collapseAux] using h
  | succ n ih =>
    intro s c h
    match s with
    | [] => simp [collapseAux] at h
    | d :: cs =>
      rw [collapseAux] at h
      cases htr : tryRepeat (d :: cs) with
      | none =>
        rw [htr] at h
        rcases List.mem_cons.mp h with h1 | h1
        · exact h1 ▸ List.mem_cons_self d cs
        · exact List.mem_cons_of_mem d (ih h1)
      | some p =>
        obtain ⟨u, rest⟩ := p
        rw [htr] at h
        rcases List.mem_append.mp h with h1 | h1
        · obtain ⟨⟨L, hu⟩, _⟩ := tryRepeat_some htr
          exact List.take_subset L (d :: cs) (hu ▸ h1)
        · obtain ⟨_, ⟨m, hrest⟩⟩ := tryRepeat_some htr
          exact List.drop_subset m (d :: cs) (hrest ▸ ih h1)

theorem isCJK_of_mem_cleanText {x : String} {c : Char} (h : c ∈ (cleanText x).data) :
    isCJK c = true := by
  simp only [cleanText, collapseRepeats, data_mk] at h
  have h1 := mem_of_mem_collapseAux h
  simp only [keepChinese, data_mk] at h1
  exact (List.mem_filter.mp h1).2

theorem removeDigitsAux_eq_self :
    ∀ (s : List Char), (∀ c ∈ s, isDigitCh c = false) → removeDigitsAux s.length s = s := by
  intro s
  induction s with
  | nil => intro _; rfl
  | cons c cs ih =>
    intro h
    have hc : isDigitCh c = false := h c (List.mem_cons_self c cs)
    simp only [List.length_cons, removeDigitsAux, hc, Bool.false_eq_true, if_false]
    exact congrArg (c :: ·) (ih fun d hd => h d (List.mem_cons_of_mem c hd))

theorem removeDigits_eq_self {s : String} (h : ∀ c ∈ s.data, isDigitCh c = false) :
    removeDigits s = s := by
  cases s with
  | mk d => simp only [removeDigits, data_mk]; exact congrArg String.mk (removeDigitsAux_eq_self d h)

theorem keepChinese_eq_self {s : String} (h : ∀ c ∈ s.data, isCJK c = true) :
    keepChinese s = s := by
  cases s with
  | mk d => simp only [keepChinese, data_mk]; exact congrArg String.mk (List.filter_eq_self.mpr h)

theorem firsts_nodup : ∀ (l : List String), (firsts l).Nodup := by
  intro l
  induction l with
  | nil => exact List.nodup_nil
  | cons x xs ih =>
    rw [firsts]
    refine List.nodup_cons.mpr ⟨fun hmem => ?_, ih.filter _⟩
    have := (List.mem_filter.mp hmem).2
    simp [bne_iff_ne] at this

theorem mem_firsts : ∀ {l : List String} {x : String}, x ∈ l → x ∈ firsts l := by
  intro l
  induction l with
  | nil => intro x h; cases h
  | cons a as ih =>
    intro x h
    rw [firsts]
    rcases List.mem_cons.mp h with h1 | h1
    · exact h1 ▸ List.mem_cons_self a _
    · by_cases hxa : x = a
      · exact hxa ▸ List.mem_cons_self a _
      · exact List.mem_cons_of_mem a
          (List.mem_filter.mpr ⟨ih h1, bne_iff_ne.mpr hxa⟩)

theorem sum_map_count_cons (d : List String) (x : String) (l : List String) :
    (d.map fun t => (x :: l).count t).sum = (d.map fun t => l.count t).sum + d.count x := by
  induction d with
  | nil => simp
  | cons a d ih =>
    simp only [List.map_cons, List.sum_cons, ih]
    simp only [List.count_cons]
    have hsymm : (x == a) = (a == x) := by
      by_cases h : a = x
      · simp [h]
      · simp [beq_eq_false_iff_ne.mpr h, beq_eq_false_iff_ne.mpr (Ne.symm h)]
    rw [hsymm]
    omega

theorem sum_counts_of_cover :
    ∀ (l d : List String), d.Nodup → (∀ x ∈ l, x ∈ d) →
      (d.map fun t => l.count t).sum = l.length := by
  intro l
  induction l with
  | nil => intro d _ _; simp
  | cons x xs ih =>
    intro d hnd hcov
    rw [sum_map_count_cons]
    have hx : d.count x = 1 :=
      List.count_eq_one_of_mem hnd (hcov x (List.mem_cons_self x xs))
    rw [ih d hnd (fun y hy => hcov y (List.mem_cons_of_mem x hy)), hx, List.length_cons]

/-- The key counting fact: the counts of `Counter(l)` sum to the length
of `l` — every token is counted exactly once. -/
theorem sumCounts_counterItems (l : List String) :
    sumCounts (counterItems l) = l.length := by
  simp only [sumCounts, counterItems, List.map_map]
  exact sum_counts_of_cover l (firsts l) (firsts_nodup l) (fun x hx => mem_firsts hx)

theorem mem_insertDesc {z x : String × Nat} :
    ∀ {s : List (String × Nat)}, z ∈ insertDesc x s → z = x ∨ z ∈ s := by
  intro s
  induction s with
  | nil => intro h; simpa [insertDesc] using h
  | cons y ys ih =>
    intro h
    rw [insertDesc] at h
    split at h
    · rcases List.mem_cons.mp h with h1 | h1
      · exact Or.inl h1
      · exact Or.inr h1
    · rcases List.mem_cons.mp h with h1 | h1
      · exact Or.inr (h1 ▸ List.mem_cons_self y ys)
      · rcases ih h1 with h2 | h2
        · exact Or.inl h2
        · exact Or.inr (List.mem_cons_of_mem y h2)

theorem insertDesc_pairwise {x : String × Nat} :
    ∀ {s : List (String × Nat)}, s.Pairwise (fun a b => b.2 ≤ a.2) →
      (insertDesc x s).Pairwise (fun a b => b.2 ≤ a.2) := by
  intro s
  induction s with
  | nil => intro _; exact List.pairwise_singleton _ x
  | cons y ys ih =>
    intro h
    obtain ⟨hy, hys⟩ := List.pairwise_cons.mp h
    rw [insertDesc]
    split
    · refine List.pairwise_cons.mpr ⟨?_, h⟩
      intro z hz
      rcases List.mem_cons.mp hz with h1 | h1
      · subst h1; omega
      · have := hy z h1; omega
    · refine List.pairwise_cons.mpr ⟨?_, ih hys⟩
      intro z hz
      rcases mem_insertDesc hz with h1 | h1
      · subst h1; omega
      · exact hy z h1

theorem sortDesc_pairwise :
    ∀ (l : List (String × Nat)), (sortDesc l).Pairwise (fun a b => b.2 ≤ a.2) := by
  intro l
  induction l with
  | nil => exact List.Pairwise.nil
  | cons x xs ih => exact insertDesc_pairwise ih

theorem filter_insertDesc (c : Nat) (x : String × Nat) :
    ∀ (s : List (String × Nat)),
      (insertDesc x s).filter (fun e => e.2 == c) =
        if x.2 = c then x :: s.filter (fun e => e.2 == c)
        else s.filter (fun e => e.2 == c) := by
  intro s
  induction s with
  | nil =>
    by_cases hx : x.2 = c
    · simp [insertDesc, List.filter, hx]
    · simp [insertDesc, List.filter, beq_eq_false_iff_ne.mpr hx, hx]
  | cons y ys ih =>
    rw [insertDesc]
    split
    case isTrue hle =>
      by_cases hx : x.2 = c
      · simp [List.filter_cons, hx]
      · simp [List.filter_cons, beq_eq_false_iff_ne.mpr hx, hx]
    case isFalse hlt =>
      by_cases hy : y.2 = c
      · have hx : ¬x.2 = c := by omega
        simp [List.filter_cons, hy, hx, ih]
      · simp [List.filter_cons, hy, ih]

theorem filter_sortDesc (c : Nat) :
    ∀ (l : List (String × Nat)),
      (sortDesc l).filter (fun e => e.2 == c) = l.filter (fun e => e.2 == c) := by
  intro l
  induction l with
  | nil => rfl
  | cons x xs ih =>
    rw [sortDesc, filter_insertDesc]
    by_cases hx : x.2 = c
    · simp [hx, List.filter_cons, ih]
    · simp [hx, List.filter_cons, beq_eq_false_iff_ne.mpr hx, ih]

theorem dropWhile_eq_self_of_all_false {p : Char → Bool} :
    ∀ {l : List Char}, (∀ c ∈ l, p c = false) → l.dropWhile p = l := by
  intro l h
  cases l with
  | nil => rfl
  | cons a as =>
    rw [List.dropWhile_cons]
    simp [h a (List.mem_cons_self a as)]

theorem stripStr_eq_self {s : String} (h : ∀ c ∈ s.data, isSpaceCh c = false) :
    stripStr s = s := by
  cases s with
  | mk d =>
    simp only [stripStr, data_mk]
    rw [dropWhile_eq_self_of_all_false h]
    rw [dropWhile_eq_self_of_all_false (fun c hc => h c (List.mem_reverse.mp hc))]
    exact congrArg String.mk (List.reverse_reverse d)

theorem collapseWSAux_append_of_all_false {l1 : List Char}
    (h : ∀ c ∈ l1, isSpaceCh c = false) (l2 : List Char) :
    collapseWSAux false (l1 ++ l2) = l1 ++ collapseWSAux false l2 := by
  induction l1 with
  | nil => rfl
  | cons a as ih =>
    rw [List.cons_append, collapseWSAux]
    simp only [h a (List.mem_cons_self a as), Bool.false_eq_true, if_false, List.cons_append]
    exact congrArg (a :: ·) (ih (fun c hc => h c (List.mem_cons_of_mem a hc)))

theorem collapseWSAux_true_append {l1 : List Char} (hne : l1 ≠ [])
    (h : ∀ c ∈ l1, isSpaceCh c = false) (l2 : List Char) :
    collapseWSAux true (l1 ++ l2) = l1 ++ collapseWSAux false l2 := by
  cases l1 with
  | nil => exact absurd rfl hne
  | cons a as =>
    rw [List.cons_append, collapseWSAux]
    simp only [h a (List.mem_cons_self a as), Bool.false_eq_true, if_false, List.cons_append]
    exact congrArg (a :: ·)
      (collapseWSAux_append_of_all_false (fun c hc => h c (List.mem_cons_of_mem a hc)) l2)

theorem collapseWSAux_space_cons (l : List Char) :
    collapseWSAux false (' ' :: l) = ' ' :: collapseWSAux true l := by
  rw [collapseWSAux]
  simp [isSpaceCh]

theorem mk_data (s : String) : String.mk s.data = s := by cases s; rfl

theorem collapseWSAux_true_id {l : List Char} (hne : l ≠ [])
    (h : ∀ c ∈ l, isSpaceCh c = false) : collapseWSAux true l = l := by
  have h1 := collapseWSAux_true_append hne h []
  simpa [collapseWSAux] using h1

/-- Claim C1 (amended): the extractor has no rule cascade — it always
takes the full page's visible text, strips each string, and joins with a
single space.  For a document whose only texts are three p elements with
non-blank texts, the result is the three texts joined by single spaces
(not newlines). -/
theorem extract_three_paragraphs (a b c : String)
    (hane : a.data ≠ []) (ha : ∀ ch ∈ a.data, isSpaceCh ch = false)
    (hbne : b.data ≠ []) (hb : ∀ ch ∈ b.data, isSpaceCh ch = false)
    (hcne : c.data ≠ []) (hc : ∀ ch ∈ c.data, isSpaceCh ch = false) :
    extractText (threePDoc a b c) = a ++ " " ++ (b ++ " " ++ c) := by
  have hlist : nodeStringsList (scrubList (threePDoc a b c)) = [a, b, c] := rfl
  have ha' : (a != "") = true := by
    rw [bne_iff_ne]
    intro h
    exact hane (congrArg String.data h)
  have hb' : (b != "") = true := by
    rw [bne_iff_ne]
    intro h
    exact hbne (congrArg String.data h)
  have hc' : (c != "") = true := by
    rw [bne_iff_ne]
    intro h
    exact hcne (congrArg String.data h)
  have hjoin : getTextStrip (scrubList (threePDoc a b c)) = a ++ " " ++ (b ++ " " ++ c) := by
    rw [getTextStrip, hlist, List.map_cons, List.map_cons, List.map_cons, List.map_nil,
      stripStr_eq_self ha, stripStr_eq_self hb, stripStr_eq_self hc]
    simp only [List.filter_cons, ha', hb', hc', if_true, List.filter_nil]
    rfl
  rw [extractText, hjoin]
  have hdata : (a ++ " " ++ (b ++ " " ++ c)).data =
      a.data ++ (' ' :: (b.data ++ (' ' :: c.data))) := by
    simp [String.data_append, List.append_assoc]
  rw [collapse_ws, hdata]
  rw [collapseWSAux_append_of_all_false ha, collapseWSAux_space_cons,
    collapseWSAux_true_append hbne hb, collapseWSAux_space_cons,
    collapseWSAux_true_id hcne hc]
  rw [← hdata, mk_data]

/-- Claim C1 (witness): the amended claim at the concrete document with
paragraph texts "A", "B", "C". -/
theorem extract_three_paragraphs_witness : extractText exampleDoc = "A B C" := by
  have h := extract_three_paragraphs "A" "B" "C" (by decide) (by decide) (by decide)
    (by decide) (by decide) (by decide)
  exact h

/-- Claim C1 (counterexample): the spec requires cascade rule 3 to
produce `body_text` `"A\nB\nC"` for the three-paragraph document; the
code joins with spaces and produces `"A B C"` instead. -/
theorem extract_cascade_counterexample : extractText exampleDoc ≠ "A\nB\nC" := by decide

/-- Claim C2 (amended): the 50-character check of `crawl_webpage` only
selects a warning; the stored text is passed on unchanged, and the only
hard gates before segmentation are the length-10 check and the
emptiness check after cleaning.  Any text of raw length at least 10
whose cleaned form is non-empty reaches segmentation, including texts of
length 10–49. -/
theorem segmentation_runs_from_ten (segment : String → List String) (t : String)
    (hlen : 10 ≤ t.length) (hclean : cleanText t ≠ "") :
    (preprocessSeg segment t).2 = true := by
  rw [preprocessSeg, if_neg (by omega : ¬t.length < 10), if_neg hclean]

/-- Claim C2 (witness): a concrete 12-character Chinese text satisfies
both hypotheses of the amended claim. -/
theorem segmentation_runs_from_ten_witness :
    (preprocessSeg segId "人工智能正在改变各行各业").2 = true :=
  segmentation_runs_from_ten segId "人工智能正在改变各行各业" (by decide) (by decide)

/-- Claim C2 (counterexample): a 12-character text is below the
50-character threshold (so the claim says it must not be tokenized), yet
control reaches the segmentation call. -/
theorem min_length_gate_counterexample :
    contentTooShort "人工智能正在改变各行各业" = true ∧
      (preprocessSeg segId "人工智能正在改变各行各业").2 = true := by
  exact ⟨by decide, by decide⟩

/-- Claim C10 (amended): input shorter than 10 characters returns an
empty token list with segmentation never attempted; for longer input,
segmentation is attempted exactly when the cleaned text is non-empty. -/
theorem short_text_gate (segment : String → List String) (t : String) :
    (t.length < 10 → preprocessSeg segment t = ([], false)) ∧
      ((preprocessSeg segment t).2 = true ↔ 10 ≤ t.length ∧ cleanText t ≠ "") := by
  constructor
  · intro h
    rw [preprocessSeg, if_pos h]
  · by_cases h1 : t.length < 10
    · rw [preprocessSeg, if_pos h1]
      constructor
      · intro hf; cases hf
      · rintro ⟨h2, _⟩; omega
    · by_cases h2 : cleanText t = ""
      · rw [preprocessSeg, if_neg h1, if_pos h2]
        constructor
        · intro hf; cases hf
        · rintro ⟨_, h3⟩; exact absurd h2 h3
      · rw [preprocessSeg, if_neg h1, if_neg h2]
        exact ⟨fun _ => ⟨by omega, h2⟩, fun _ => rfl⟩

/-- Claim C10 (witness): the amended claim at a 6-character purely
Chinese phrase, which is rejected by the length-10 gate. -/
theorem short_text_gate_witness : preprocessSeg segId "人工智能科技" = ([], false) :=
  (short_text_gate segId "人工智能科技").1 (by decide)

/-- Claim C10 (counterexample): a 10-character all-Latin text passes the
length gate but is emptied by cleaning, so segmentation is never
attempted — refuting "text of length at least 10 proceeds to cleaning
and segmentation". -/
theorem short_text_gate_counterexample :
    10 ≤ ("aaaaaaaaaa" : String).length ∧ (preprocessSeg segId "aaaaaaaaaa").2 = false := by
  exact ⟨by decide, by decide⟩

/-- Claim C4 (amended): the digit-removal and CJK-restriction steps are
idempotent — applying the normalizer to its own output is the same as
applying only the repeat-collapsing pass — but the repeat-collapsing
pass itself is not idempotent, so neither is the full normalizer. -/
theorem cleanText_cleanText (x : String) :
    cleanText (cleanText x) = collapseRepeats (cleanText x) := by
  have hcjk : ∀ c ∈ (cleanText x).data, isCJK c = true := fun c hc => isCJK_of_mem_cleanText hc
  show collapseRepeats (keepChinese (removeDigits (cleanText x))) = collapseRepeats (cleanText x)
  rw [removeDigits_eq_self (fun c hc => isDigitCh_eq_false_of_isCJK (hcjk c hc)),
    keepChinese_eq_self hcjk]

/-- Claim C4 (counterexample): normalizing a second time changes the
result.  The first pass collapses the leading four copies of a 3-character
unit, and the collapsed output ends with a 2-character unit repeated 4
times, which only the second pass collapses. -/
theorem normalize_idempotent_counterexample :
    cleanText (cleanText "丙甲乙丙甲乙丙甲乙丙甲乙甲乙甲乙甲乙") ≠
      cleanText "丙甲乙丙甲乙丙甲乙丙甲乙甲乙甲乙甲乙" := by decide

/-- Claim C7 (amended): the repeat-collapsing pass replaces each
leftmost match of a 2–5 character unit repeated 4 or more consecutive
times by one copy of the greedily chosen capture (longest capture length
first).  Five copies of a 2-character unit collapse to one, as the claim
states; but eight copies of a 2-character unit collapse to two, because
the 4-character double unit wins as capture. -/
theorem repeat_collapse_examples :
    cleanText "首页首页首页首页首页新闻" = "首页新闻" ∧
      cleanText "首页首页首页首页首页首页首页首页" = "首页首页" := by
  exact ⟨by decide, by decide⟩

/-- Claim C7 (counterexample): the substring 首页 is repeated 8 (≥ 4)
consecutive times, but the output is not a single occurrence. -/
theorem repeat_collapse_counterexample :
    cleanText "首页首页首页首页首页首页首页首页" ≠ "首页" := by decide

/-- Claim C3 (amended): the counts of the frequency table sum to the
number of surviving tokens capped at 5000 — equal to the survivor count
exactly when at most 5000 tokens survive, and equal to 5000 beyond the
cap. -/
theorem count_sum_eq_min_cap (words : List String) :
    sumCounts (word_count words) = min words.length 5000 := by
  rw [word_count, sumCounts_counterItems, List.length_take, Nat.min_comm]

/-- Claim C3 (counterexample): with 5001 surviving copies of one token,
the counts sum to 5000, not to the number of surviving tokens. -/
theorem count_sum_counterexample :
    sumCounts (word_count (List.replicate 5001 "甲")) ≠ (List.replicate 5001 "甲").length := by
  rw [word_count, sumCounts_counterItems, List.length_take, List.length_replicate]
  omega

/-- Claim C5: the frequency table is ordered by count descending; the
truncated table is a prefix of the full stable sort; for every count
value, the entries with that count appear exactly in the order of the
counter items, which list tokens in first-occurrence order; and the
example token sequence produces exactly the claimed table. -/
theorem aggregate_order_stable :
    (∀ l : List String,
        (top_n l).Pairwise (fun x y => y.2 ≤ x.2) ∧
        top_n l = (sortDesc (word_count l)).take (min 20 (word_count l).length) ∧
        ∀ c : Nat, (sortDesc (word_count l)).filter (fun e => e.2 == c) =
          (word_count l).filter (fun e => e.2 == c)) ∧
      top_n ["A", "B", "A", "C", "B", "A"] = [("A", 3), ("B", 2), ("C", 1)] := by
  constructor
  · intro l
    refine ⟨?_, rfl, fun c => filter_sortDesc c _⟩
    exact List.Pairwise.sublist (List.take_sublist _ _) (sortDesc_pairwise _)
  · decide

/-- Claim C6: the stop-word and length filters drop 的 and 了 and keep
the remaining tokens in order, and aggregation counts them with stable
descending order. -/
theorem stopword_filter_example :
    filterTokens ["的", "人工智能", "了", "人工智能", "科技"] = ["人工智能", "人工智能", "科技"] ∧
      top_n ["人工智能", "人工智能", "科技"] = [("人工智能", 2), ("科技", 1)] := by
  exact ⟨by decide, by decide⟩

/-- Claim C8: preprocessing the empty string returns an empty token list
(the length gate fires, so no error path is reachable), and aggregating
an empty token sequence returns an empty table. -/
theorem empty_input_safe :
    (∀ segment : String → List String, preprocessSeg segment "" = ([], false)) ∧
      top_n [] = [] := by
  exact ⟨fun segment => rfl, rfl⟩

/-- Claim C9: for any segmenter whose tokens are built from characters
of its input (true of any segmentation of the text), every token
returned by `preprocess_text` consists only of CJK characters in the
range 一-龥, has length at least 2, and is not one of the 16 built-in
stop words. -/
theorem preprocess_token_invariants (segment : String → List String) (text : String)
    (hseg : ∀ s : String, ∀ w ∈ segment s, ∀ c ∈ w.data, c ∈ s.data) :
    ∀ w ∈ preprocess_text segment text,
      (∀ c ∈ w.data, isCJK c = true) ∧ 2 ≤ w.length ∧ w ∉ stopWords := by
  intro w hw
  rw [preprocess_text, preprocessSeg] at hw
  by_cases h1 : text.length < 10
  · rw [if_pos h1] at hw; cases hw
  · by_cases h2 : cleanText text = ""
    · rw [if_neg h1, if_pos h2] at hw; cases hw
    · have hw' : w ∈ filterTokens (segment (cleanText text)) := by
        rw [if_neg h1, if_neg h2] at hw; exact hw
      rw [filterTokens] at hw'
      obtain ⟨hw2, _⟩ := List.mem_filter.mp hw'
      obtain ⟨hw3, hp⟩ := List.mem_filter.mp hw2
      rw [Bool.and_eq_true] at hp
      obtain ⟨hnc, hlen2⟩ := hp
      refine ⟨?_, of_decide_eq_true hlen2, ?_⟩
      · intro c hc
        exact isCJK_of_mem_cleanText (hseg (cleanText text) w hw3 c hc)
      · intro hmem
        rw [Bool.not_eq_true'] at hnc
        have hct : stopWords.contains w = true :=
          List.contains_iff_exists_mem_beq.mpr ⟨w, hmem, by simp⟩
        rw [hct] at hnc
        cases hnc

/-- Claim C9 (witness): a concrete segmenter and text for which the
hypotheses hold; the produced token is all-CJK, of length at least 2,
and not a stop word. -/
theorem preprocess_token_invariants_witness :
    ("人工智能正在改变各行各业" : String).data.all isCJK = true ∧
      2 ≤ ("人工智能正在改变各行各业" : String).length ∧
      "人工智能正在改变各行各业" ∉ stopWords := by
  have h := preprocess_token_invariants segId "人工智能正在改变各行各业"
    (fun s w hw c hc => by
      simp only [segId, List.mem_singleton] at hw
      exact hw ▸ hc)
    "人工智能正在改变各行各业" (by decide)
  exact ⟨List.all_eq_true.mpr h.1, h.2.1, h.2.2⟩
